import Mathlib

/-!
Shallow embedding of `beancount/ops/balance.py` (the `check` plugin that
evaluates Balance assertion directives against a replayed ledger).

The file `balance.py` is the authoritative source.  Its collaborators
(`beancount.core.realization`, `beancount.core.inventory`,
`beancount.core.getters`, `beancount.core.amount`) are not part of the
sources; the operations `check` consumes from them are modelled from the
spec, each marked `Modelled from the spec:` in its doc comment.

Decimal amounts are embedded as rationals (`ℚ`); account and currency
names as strings; the opaque file-location token as a string; dates as
naturals (only carried along, never inspected by the algorithm).
-/

namespace BeancountBalance

/-- Account path, e.g. `Assets:Bank:Checking` (components separated by `:`). -/
abbrev Account := String

/-- Currency name, e.g. `USD`. -/
abbrev Currency := String

/-- An amount: a signed decimal number tagged with a currency
(Python `beancount.core.amount.Amount(number, currency)`). -/
structure Amount where
  number : ℚ
  currency : Currency
deriving DecidableEq

/-- A position held in an account: a signed number of units of one currency.
The spec treats the optional cost basis opaquely (positions combine by
currency key), so it is omitted here. -/
structure Position where
  number : ℚ
  currency : Currency
deriving DecidableEq

/-- One (account, position) effect within a transaction. -/
structure Posting where
  account : Account
  position : Position
deriving DecidableEq

/-- A transaction entry: the replay only reads its `postings`; the
file-location token and date are carried opaquely. -/
structure Transaction where
  fileloc : String
  date : Nat
  postings : List Posting
deriving DecidableEq

/-- A Balance assertion directive, mirroring the namedtuple fields used at
`balance.py` line 109: `Balance(fileloc, date, account, amount, diff_amount)`.
`diff_amount` is absent (`none`) on parsed input entries. -/
structure BalanceDir where
  fileloc : String
  date : Nat
  account : Account
  amount : Amount
  diff_amount : Option Amount
deriving DecidableEq

/-- A ledger entry: a transaction or a balance assertion (the only two
entry kinds `check` distinguishes; every other entry would be passed
through unchanged exactly like a passing assertion). -/
inductive Entry
  | txn (t : Transaction)
  | bal (b : BalanceDir)
deriving DecidableEq

/-- The structured content of the error message built at `balance.py`
lines 97-101: the five `format` arguments of the template
`"Balance failed for '{}': expected {} != accumulated {} ({} {})"`, in
order.  (Note: the source passes `balance_amount` into the slot after
the word `expected` and `expected_amount` into the slot after
`accumulated`; the fields below are named after the values, in the
positional order they are formatted.) -/
structure CheckMessage where
  account : Account
  balanceAmount : Amount
  expectedAmount : Amount
  diff : Amount
  label : String
deriving DecidableEq

/-- The error record `BalanceError = namedtuple(fileloc, message, entry)`. -/
structure BalanceError where
  fileloc : String
  message : CheckMessage
  entry : Entry
deriving DecidableEq

/-- The `options_map` argument of `check` (a dict of options parsed from
the input file); modelled as a partial map from option names to numeric
values, which is enough to (hypothetically) carry a tolerance. -/
abbrev OptionsMap := String → Option ℚ

/-- The constant `CHECK_PRECISION` (`balance.py` line 21): the fixed
comparison tolerance. -/
def CHECK_PRECISION : ℚ := 15 / 1000

/-- Modelled from the spec: `amount_sub` from `beancount.core.amount` —
the signed difference of two amounts in the same currency
(`accumulated − expected`), carrying that currency. -/
def amount_sub (a b : Amount) : Amount := ⟨a.number - b.number, a.currency⟩

/-- Modelled from the spec: truthiness of an `Amount` as used by
`'too much' if diff_amount else 'too little'` (`balance.py` line 101) —
per the spec, an amount is truthy exactly when its number is nonzero. -/
def amountTruthy (a : Amount) : Bool := a.number ≠ 0

/-- The direction label of a failure message (`balance.py` line 101):
`"too much"` when the diff amount is truthy, `"too little"` otherwise. -/
def directionLabel (a : Amount) : String :=
  if amountTruthy a then "too much" else "too little"

/-- String prefix test: Python's `s.startswith(p)` on plain strings. -/
def strPrefixB (p s : String) : Bool := p.data.isPrefixOf s.data

/-- Node `q` lies in the subtree rooted at node `p` of the account
hierarchy: `q` equals `p`, or `q` extends `p` past a delimiter (the
spec's ancestry relation: `P` is an ancestor of `Q` iff `Q` starts with
`P` followed by the delimiter `:`). -/
def inSubtreeB (p q : Account) : Bool := p == q || strPrefixB (p ++ ":") q

/-- The proper delimiter-ancestors of a path, as character lists: all
`l'` such that `l' ++ ':' :: rest = l` for some `rest`. -/
def ancestorCuts : List Char → List (List Char)
  | [] => []
  | c :: cs => (if c = ':' then [([] : List Char)] else []) ++ (ancestorCuts cs).map (fun l => c :: l)

/-- The proper delimiter-ancestors of an account path (`Assets:Bank:Ck`
↦ `[Assets, Assets:Bank]` in some order). -/
def ancestorStrings (a : Account) : List Account :=
  (ancestorCuts a.data).map (fun l => String.mk l)

/-- Modelled from the spec: `getters.get_accounts(entries)` — the set of
account paths appearing anywhere in the ledger, via any posting or
assertion (as a list; only membership matters). -/
def getAccounts (entries : List Entry) : List Account :=
  entries.flatMap fun e =>
    match e with
    | .txn t => t.postings.map (·.account)
    | .bal b => [b.account]

/-- The set `asserted_accounts` (`balance.py` lines 50-52): the accounts directly
named in some Balance directive. -/
def assertedAccounts (entries : List Entry) : List Account :=
  entries.filterMap fun e =>
    match e with
    | .txn _ => none
    | .bal b => some b.account

/-- The selection filter of `balance.py` lines 57-61: an account from the
ledger is selected when it is an asserted account or starts (as a string,
Python `str.startswith`) with some asserted account. -/
def selectedAccounts (entries : List Entry) : List Account :=
  (getAccounts entries).filter fun account =>
    (assertedAccounts entries).contains account ||
      (assertedAccounts entries).any fun asserted => strPrefixB asserted account

/-- Modelled from the spec: the set of hierarchy nodes existing after the
selection loop (`realization.get_or_create(real_root, account)` for each
selected account) — every selected path together with all its delimiter
ancestors, since creating a node implicitly creates and links all missing
ancestors.  Deduplicated: the tree holds one node per path. -/
def nodeList (entries : List Entry) : List Account :=
  ((selectedAccounts entries).flatMap fun a => a :: ancestorStrings a).dedup

/-- The mutable per-node *own* inventories of the hierarchy (node path →
currency → accumulated number), for nodes in the tracked node list;
`realization.RealAccount.balance` for each node.  Paths without a node
are constantly zero and never updated. -/
abbrev Balances := Account → Currency → ℚ

/-- All inventories start empty. -/
def initB : Balances := fun _ _ => 0

/-- One posting applied to the hierarchy (`balance.py` lines 66-73):
`realization.get` succeeds exactly for tracked nodes; if the node exists,
`add_position` combines the position into that node's own inventory at
the position's currency (always permitted to go negative). -/
def applyPosting (nl : List Account) (st : Balances) (p : Posting) : Balances :=
  if nl.contains p.account then
    fun a c => if a = p.account ∧ c = p.position.currency
               then st a c + p.position.number else st a c
  else st

/-- Modelled from the spec: the subtree balance at `acct`, queried for
one currency (`balance.py` lines 85-90): sum the own inventories of the
node and all its descendants (`realization.iter_children(node, False)`
yields the node itself and every node below it), then `get_amount`
extracts the accumulated number for the one currency, zero if absent. -/
def subtreeAmount (nl : List Account) (st : Balances) (acct : Account) (c : Currency) : ℚ :=
  ((nl.filter fun q => inSubtreeB acct q).map fun q => st q c).sum

/-- One iteration of the replay loop of `balance.py` lines 63-112 on a
single entry: returns the updated state, the output entry appended to
`new_entries`, and the (zero or one) errors appended to `check_errors`;
`none` models the fatal `assert real_account is not None` at line 80. -/
def stepEntry (nl : List Account) (st : Balances) : Entry → Option (Balances × Entry × List BalanceError)
  | .txn t => some (t.postings.foldl (applyPosting nl) st, .txn t, [])
  | .bal b =>
    if nl.contains b.account then
      let balanceAmount : Amount := ⟨subtreeAmount nl st b.account b.amount.currency, b.amount.currency⟩
      let diffAmount : Amount := amount_sub balanceAmount b.amount
      if |diffAmount.number| > CHECK_PRECISION then
        some (st,
          .bal ⟨b.fileloc, b.date, b.account, b.amount, some diffAmount⟩,
          [⟨b.fileloc,
            ⟨b.account, balanceAmount, b.amount, diffAmount, directionLabel diffAmount⟩,
            .bal b⟩])
      else
        some (st, .bal b, [])
    else
      none

/-- The replay loop over the whole entry list (`balance.py` lines 63-114),
threading the hierarchy state and accumulating `new_entries` and
`check_errors` in encounter order. -/
def replay (nl : List Account) (l : List Entry) (st : Balances) :
    Option (Balances × List Entry × List BalanceError) :=
  match l with
  | [] => some (st, [], [])
  | e :: rest =>
    (stepEntry nl st e).bind fun r =>
      (replay nl rest r.1).bind fun r2 =>
        some (r2.1, r.2.1 :: r2.2.1, r.2.2 ++ r2.2.2)

/-- The pass `check(entries, unused_options_map)` (`balance.py` lines 23-114):
build the tracked hierarchy, replay the entries, return
`(new_entries, check_errors)`.  The options map is not consumed
(the parameter is named `unused_options_map` in the source).
`none` models the fatal internal assertion. -/
def check (entries : List Entry) (unused_options_map : OptionsMap) :
    Option (List Entry × List BalanceError) :=
  (replay (nodeList entries) entries initB).map fun r => (r.2.1, r.2.2)

/-- The relation between an input entry and the output entry at the same
position: unchanged, or (for an assertion) replaced by a copy that
differs only in its populated `diff_amount` field. -/
def entryRel (e oe : Entry) : Prop :=
  oe = e ∨ ∃ b d, e = Entry.bal b ∧
    oe = Entry.bal ⟨b.fileloc, b.date, b.account, b.amount, some d⟩

/-- The pure state projection of the replay: only transactions mutate the
hierarchy, and they do so unconditionally of any assertion outcome. -/
def replayState (nl : List Account) (l : List Entry) (st : Balances) : Balances :=
  l.foldl (fun s e =>
    match e with
    | .txn t => t.postings.foldl (applyPosting nl) s
    | .bal _ => s) st

/-- All postings of the transactions of a ledger, in order. -/
def postingsOf (l : List Entry) : List Posting :=
  l.flatMap fun e =>
    match e with
    | .txn t => t.postings
    | .bal _ => []

/-- The total contribution of a posting list to the subtree of `acct` in
currency `c`: the sum of the numbers of the postings whose account has a
tracked node inside that subtree and whose currency is `c`. -/
def postSum (nl : List Account) (ps : List Posting) (acct : Account) (c : Currency) : ℚ :=
  ((ps.filter fun p =>
      nl.contains p.account && inSubtreeB acct p.account && p.position.currency == c).map
    fun p => p.position.number).sum

/-- The raw-ledger characterization of a subtree balance: the sum of the
numbers of all postings of `l` whose account has a tracked node inside
the subtree rooted at `acct` and whose currency is `c`. -/
def subtreePostSum (nl : List Account) (l : List Entry) (acct : Account) (c : Currency) : ℚ :=
  postSum nl (postingsOf l) acct c

/-- Following the spec's words (for comparison with the source's
selection): an account is *tracked* when it is an asserted account, an
ancestor of one, or a descendant of one — ancestry being the delimiter
relation (`Q` starts with `P` followed by `:`). -/
def specTrackedAccount (entries : List Entry) (a : Account) : Bool :=
  (assertedAccounts entries).contains a ||
    ((assertedAccounts entries).any fun s => strPrefixB (a ++ ":") s) ||
    ((assertedAccounts entries).any fun s => strPrefixB (s ++ ":") a)

/-- Ledger `l` with the postings to account `a` dropped (transactions
keep their other postings; assertions unchanged). -/
def dropPostingsTo (a : Account) (l : List Entry) : List Entry :=
  l.map fun e =>
    match e with
    | .txn t => .txn ⟨t.fileloc, t.date, t.postings.filter fun p => !(p.account == a)⟩
    | .bal b => .bal b

/-! ### Concrete inputs used by witnesses and counterexamples -/

/-- An arbitrary opaque file-location token. -/
def floc : String := "ledger:1"

/-- The default (empty) options map. -/
def noOptions : OptionsMap := fun _ => none

/-- The spec's Scenario ledger: a transaction of +100 USD to a cash
account, a passing assertion of 100 USD, then a failing assertion of
90 USD. -/
def esScenario : List Entry :=
  [.txn ⟨floc, 1, [⟨"A:C", ⟨100, "USD"⟩⟩]⟩,
   .bal ⟨floc, 2, "A:C", ⟨100, "USD"⟩, none⟩,
   .bal ⟨floc, 3, "A:C", ⟨90, "USD"⟩, none⟩]

/-- A ledger whose only assertion names `A:B` while its only posting goes
to `A:BX` — a string-prefix extension of the asserted account that is not
a delimiter descendant of it. -/
def esPrefixC5 : List Entry :=
  [.txn ⟨floc, 1, [⟨"A:BX", ⟨100, "USD"⟩⟩]⟩,
   .bal ⟨floc, 2, "A:B", ⟨0, "USD"⟩, none⟩]

/-- Same shape as `esPrefixC5` with different numbers, for the inventory
mutation counterexample: +7 EUR posted to `A:BX`, assertion on `A:B`. -/
def esPrefixC6 : List Entry :=
  [.txn ⟨floc, 1, [⟨"A:BX", ⟨7, "EUR"⟩⟩]⟩,
   .bal ⟨floc, 2, "A:B", ⟨0, "EUR"⟩, none⟩]

/-- A ledger with a failing assertion (accumulated 100, expected 50). -/
def esFailing : List Entry :=
  [.txn ⟨floc, 1, [⟨"A:C", ⟨100, "USD"⟩⟩]⟩,
   .bal ⟨floc, 2, "A:C", ⟨50, "USD"⟩, none⟩]

/-- An options map that (hypothetically) supplies a very loose tolerance
of 1000 under both plausible option names. -/
def looseOptions : OptionsMap :=
  fun k => if k = "tolerance" ∨ k = "check_precision" then some 1000 else none

/-- The P4 subtree-aggregation ledger: +10 CUR to `A:B:C` and +5 CUR to
`A:B:S`, then an assertion of 15 CUR on the parent `A:B`. -/
def esSubtree : List Entry :=
  [.txn ⟨floc, 1, [⟨"A:B:C", ⟨10, "CUR"⟩⟩, ⟨"A:B:S", ⟨5, "CUR"⟩⟩]⟩,
   .bal ⟨floc, 2, "A:B", ⟨15, "CUR"⟩, none⟩]

/-! ### Helper lemmas -/

theorem contains_true_iff {l : List String} {a : String} :
    l.contains a = true ↔ a ∈ l := by
  simp [List.contains, List.elem_iff]

theorem strPrefixB_iff {p s : String} :
    strPrefixB p s = true ↔ p.data <+: s.data := by
  simp [strPrefixB, List.isPrefixOf_iff_prefix]

theorem strPrefixB_refl (s : String) : strPrefixB s s = true := by
  simp [strPrefixB_iff]

theorem str_append_data (a b : String) : (a ++ b).data = a.data ++ b.data := rfl

theorem mem_ancestorCuts {l : List Char} {a : List Char} :
    a ∈ ancestorCuts l ↔ (a ++ [':']) <+: l := by
  induction l generalizing a with
  | nil =>
    simp only [ancestorCuts, List.not_mem_nil, false_iff]
    intro h
    have := h.length_le
    simp at this
  | cons c cs ih =>
    cases a with
    | nil =>
      by_cases hc : c = ':'
      · subst hc
        simp [ancestorCuts, List.cons_prefix_cons]
      · simp only [ancestorCuts, if_neg hc, List.nil_append, List.mem_map,
          List.nil_append, List.cons_prefix_cons]
        constructor
        · rintro ⟨x, _, hx⟩
          exact absurd hx (by simp)
        · rintro ⟨h, _⟩
          exact absurd h.symm hc
    | cons d a' =>
      by_cases hc : c = ':'
      · subst hc
        simp only [ancestorCuts, if_pos rfl, List.mem_append, List.mem_singleton,
          List.mem_map, List.cons_append, List.cons_prefix_cons]
        constructor
        · rintro (h | ⟨x, hx, hdx⟩)
          · exact absurd h (by simp)
          · cases hdx
            exact ⟨rfl, (ih).mp hx⟩
        · rintro ⟨hd, hpre⟩
          exact Or.inr ⟨a', ih.mpr hpre, by rw [hd]⟩
      · simp only [ancestorCuts, if_neg hc, List.nil_append, List.mem_map,
          List.cons_append, List.cons_prefix_cons]
        constructor
        · rintro ⟨x, hx, hdx⟩
          cases hdx
          exact ⟨rfl, ih.mp hx⟩
        · rintro ⟨hd, hpre⟩
          exact ⟨a', ih.mpr hpre, by rw [hd]⟩

theorem mem_ancestorStrings {a b : String} :
    a ∈ ancestorStrings b ↔ strPrefixB (a ++ ":") b = true := by
  constructor
  · intro h
    rcases List.mem_map.mp h with ⟨l, hl, rfl⟩
    rw [strPrefixB_iff, str_append_data]
    exact mem_ancestorCuts.mp hl
  · intro h
    rw [strPrefixB_iff, str_append_data] at h
    refine List.mem_map.mpr ⟨a.data, mem_ancestorCuts.mpr ?_, rfl⟩
    exact h

theorem inSubtreeB_iff {p q : Account} :
    inSubtreeB p q = true ↔ p = q ∨ strPrefixB (p ++ ":") q = true := by
  simp [inSubtreeB]

theorem inSubtreeB_refl (p : Account) : inSubtreeB p p = true := by
  simp [inSubtreeB]

/-- Node existence in terms of the selection: a node exists at `a`
exactly when `a` is a selected account or a delimiter ancestor of one. -/
theorem mem_nodeList_iff {es : List Entry} {a : Account} :
    a ∈ nodeList es ↔ ∃ b ∈ selectedAccounts es, inSubtreeB a b = true := by
  simp only [nodeList, List.mem_dedup, List.mem_flatMap, List.mem_cons]
  constructor
  · rintro ⟨b, hb, hab | h⟩
    · exact ⟨b, hb, by rw [hab]; exact inSubtreeB_refl b⟩
    · exact ⟨b, hb, inSubtreeB_iff.mpr (Or.inr (mem_ancestorStrings.mp h))⟩
  · rintro ⟨b, hb, h⟩
    rcases inSubtreeB_iff.mp h with hab | h
    · exact ⟨b, hb, Or.inl hab⟩
    · exact ⟨b, hb, Or.inr (mem_ancestorStrings.mpr h)⟩

/-- The selection filter in terms of the asserted accounts: an account of
the ledger is selected exactly when it starts with some asserted account
(the `account in asserted_accounts` disjunct is subsumed, since every
string starts with itself). -/
theorem mem_selectedAccounts_iff {es : List Entry} {a : Account} :
    a ∈ selectedAccounts es ↔
      a ∈ getAccounts es ∧ ∃ s ∈ assertedAccounts es, strPrefixB s a = true := by
  simp only [selectedAccounts, List.mem_filter, Bool.or_eq_true, List.any_eq_true,
    contains_true_iff]
  constructor
  · rintro ⟨ha, hs | ⟨s, hs, hps⟩⟩
    · exact ⟨ha, a, hs, strPrefixB_refl a⟩
    · exact ⟨ha, s, hs, hps⟩
  · rintro ⟨ha, s, hs, hps⟩
    exact ⟨ha, Or.inr ⟨s, hs, hps⟩⟩

theorem nodeList_nodup (es : List Entry) : (nodeList es).Nodup :=
  List.nodup_dedup _

theorem applyPosting_eval (nl : List Account) (st : Balances) (p : Posting)
    (a : Account) (c : Currency) :
    applyPosting nl st p a c =
      if nl.contains p.account = true ∧ a = p.account ∧ c = p.position.currency
      then st a c + p.position.number else st a c := by
  unfold applyPosting
  by_cases h : nl.contains p.account = true
  · rw [if_pos h]
    show (if a = p.account ∧ c = p.position.currency
          then st a c + p.position.number else st a c) = _
    by_cases h2 : a = p.account ∧ c = p.position.currency
    · rw [if_pos h2, if_pos ⟨h, h2.1, h2.2⟩]
    · rw [if_neg h2, if_neg (by tauto)]
  · rw [if_neg h, if_neg (by tauto)]

/-- Summing a pointwise update over a duplicate-free list: updating one
point adds its increment exactly once when the point is in the list. -/
theorem sum_map_point_update {L : List Account} (hL : L.Nodup)
    (g : Account → ℚ) (x : Account) (v : ℚ) :
    (L.map fun q => if q = x then g q + v else g q).sum
      = (L.map g).sum + (if x ∈ L then v else 0) := by
  induction L with
  | nil => simp
  | cons q L ih =>
    rcases List.nodup_cons.mp hL with ⟨hq, hL'⟩
    rw [List.map_cons, List.sum_cons, List.map_cons, List.sum_cons, ih hL']
    by_cases hqx : q = x
    · have hxmem : x ∈ q :: L := by
        rw [← hqx]
        exact List.mem_cons_self q L
      have hx : x ∉ L := by
        rw [← hqx]
        exact hq
      rw [if_pos hqx, if_neg hx, if_pos hxmem, hqx]
      ring
    · have hiff : (x ∈ q :: L) ↔ x ∈ L := by
        constructor
        · intro h
          rcases List.mem_cons.mp h with h | h
          · exact absurd h.symm hqx
          · exact h
        · exact fun h => List.mem_cons_of_mem _ h
      rw [if_neg hqx, if_congr hiff rfl rfl]
      ring

/-- A single posting shifts the subtree balance of `acct` by its number
exactly when its account has a tracked node in the subtree and its
currency matches. -/
theorem subtreeAmount_applyPosting {nl : List Account} (hnl : nl.Nodup)
    (st : Balances) (p : Posting) (acct : Account) (c : Currency) :
    subtreeAmount nl (applyPosting nl st p) acct c
      = subtreeAmount nl st acct c +
        (if (nl.contains p.account && inSubtreeB acct p.account
              && (p.position.currency == c)) = true
         then p.position.number else 0) := by
  by_cases hct : nl.contains p.account = true
  · by_cases hcur : p.position.currency = c
    · have hmap : ((nl.filter fun q => inSubtreeB acct q).map
          fun q => applyPosting nl st p q c)
          = (nl.filter fun q => inSubtreeB acct q).map
              fun q => if q = p.account then st q c + p.position.number else st q c := by
        refine List.map_congr_left fun q _ => ?_
        rw [applyPosting_eval]
        by_cases hq : q = p.account
        · rw [if_pos ⟨hct, hq, hcur.symm⟩, if_pos hq]
        · rw [if_neg (by tauto), if_neg hq]
      rw [subtreeAmount, hmap,
        sum_map_point_update (hnl.filter _) _ p.account p.position.number]
      rw [subtreeAmount]
      congr 1
      by_cases hin : inSubtreeB acct p.account = true
      · have hmem : p.account ∈ nl.filter fun q => inSubtreeB acct q :=
          List.mem_filter.mpr ⟨contains_true_iff.mp hct, hin⟩
        rw [if_pos hmem, if_pos (by rw [hct, hin, hcur]; simp)]
      · have hmem : p.account ∉ nl.filter fun q => inSubtreeB acct q := by
          intro hmem
          exact hin (List.mem_filter.mp hmem).2
        rw [if_neg hmem, if_neg (by rw [Bool.not_eq_true] at hin ⊢; rw [hin]; simp)]
    · have hmap : ((nl.filter fun q => inSubtreeB acct q).map
          fun q => applyPosting nl st p q c)
          = (nl.filter fun q => inSubtreeB acct q).map fun q => st q c := by
        refine List.map_congr_left fun q _ => ?_
        rw [applyPosting_eval, if_neg (by tauto)]
      rw [subtreeAmount, hmap, ← subtreeAmount,
        if_neg (by rw [Bool.not_eq_true]; simp [hcur])]
      ring
  · have hst : applyPosting nl st p = st := by
      unfold applyPosting
      rw [if_neg hct]
    rw [hst, if_neg (by rw [Bool.not_eq_true] at hct ⊢; rw [hct]; simp)]
    ring

theorem postSum_nil (nl : List Account) (acct : Account) (c : Currency) :
    postSum nl [] acct c = 0 := rfl

theorem postSum_cons (nl : List Account) (p : Posting) (ps : List Posting)
    (acct : Account) (c : Currency) :
    postSum nl (p :: ps) acct c
      = (if (nl.contains p.account && inSubtreeB acct p.account
             && (p.position.currency == c)) = true
         then p.position.number else 0) + postSum nl ps acct c := by
  unfold postSum
  rw [List.filter_cons]
  by_cases h : (nl.contains p.account && inSubtreeB acct p.account
      && (p.position.currency == c)) = true
  · rw [if_pos h, if_pos h, List.map_cons, List.sum_cons]
  · rw [if_neg h, if_neg h, zero_add]

theorem postSum_append (nl : List Account) (ps qs : List Posting)
    (acct : Account) (c : Currency) :
    postSum nl (ps ++ qs) acct c = postSum nl ps acct c + postSum nl qs acct c := by
  simp [postSum, List.filter_append]

/-- Folding a whole posting list over the state shifts the subtree
balance by the list's total contribution. -/
theorem subtreeAmount_applyPostings {nl : List Account} (hnl : nl.Nodup)
    (ps : List Posting) (st : Balances) (acct : Account) (c : Currency) :
    subtreeAmount nl (ps.foldl (applyPosting nl) st) acct c
      = subtreeAmount nl st acct c + postSum nl ps acct c := by
  induction ps generalizing st with
  | nil => simp [postSum_nil]
  | cons p ps ih =>
    rw [List.foldl_cons, ih (applyPosting nl st p),
      subtreeAmount_applyPosting hnl st p acct c, postSum_cons]
    ring

theorem postingsOf_cons_txn (t : Transaction) (l : List Entry) :
    postingsOf (Entry.txn t :: l) = t.postings ++ postingsOf l := by
  simp [postingsOf]

theorem postingsOf_cons_bal (b : BalanceDir) (l : List Entry) :
    postingsOf (Entry.bal b :: l) = postingsOf l := by
  simp [postingsOf]

/-- Invariant I3/I4 in raw-ledger form: after replaying any entry list,
every subtree balance in every currency equals the initial subtree
balance plus the sum of the tracked postings into that subtree in that
currency. -/
theorem subtreeAmount_replayState {nl : List Account} (hnl : nl.Nodup)
    (l : List Entry) (st : Balances) (acct : Account) (c : Currency) :
    subtreeAmount nl (replayState nl l st) acct c
      = subtreeAmount nl st acct c + subtreePostSum nl l acct c := by
  induction l generalizing st with
  | nil => simp [replayState, subtreePostSum, postingsOf, postSum_nil]
  | cons e l ih =>
    cases e with
    | txn t =>
      have h1 : replayState nl (Entry.txn t :: l) st
          = replayState nl l (t.postings.foldl (applyPosting nl) st) := rfl
      rw [h1, ih, subtreeAmount_applyPostings hnl]
      simp only [subtreePostSum, postingsOf_cons_txn, postSum_append]
      ring
    | bal b =>
      have h1 : replayState nl (Entry.bal b :: l) st = replayState nl l st := rfl
      rw [h1, ih]
      simp only [subtreePostSum, postingsOf_cons_bal]

theorem subtreeAmount_initB (nl : List Account) (acct : Account) (c : Currency) :
    subtreeAmount nl initB acct c = 0 := by
  simp [subtreeAmount, initB]

theorem stepEntry_txn_eq (nl : List Account) (st : Balances) (t : Transaction) :
    stepEntry nl st (Entry.txn t)
      = some (t.postings.foldl (applyPosting nl) st, Entry.txn t, []) := rfl

/-- Unfolding of the Balance branch of the replay step when the node
exists: the amount it compares is `subtreeAmount`, the test is strict
`>` against `CHECK_PRECISION`, the state is untouched, and failure
yields the diff-annotated copy plus one error. -/
theorem stepEntry_bal_eq (nl : List Account) (st : Balances) (b : BalanceDir)
    (h : nl.contains b.account = true) :
    stepEntry nl st (Entry.bal b)
      = (if |subtreeAmount nl st b.account b.amount.currency - b.amount.number|
            > CHECK_PRECISION
         then some (st,
            .bal ⟨b.fileloc, b.date, b.account, b.amount,
              some ⟨subtreeAmount nl st b.account b.amount.currency - b.amount.number,
                    b.amount.currency⟩⟩,
            [⟨b.fileloc,
              ⟨b.account,
               ⟨subtreeAmount nl st b.account b.amount.currency, b.amount.currency⟩,
               b.amount,
               ⟨subtreeAmount nl st b.account b.amount.currency - b.amount.number,
                b.amount.currency⟩,
               directionLabel ⟨subtreeAmount nl st b.account b.amount.currency
                  - b.amount.number, b.amount.currency⟩⟩,
              .bal b⟩])
         else some (st, .bal b, [])) := by
  show (if nl.contains b.account = true then _ else none) = _
  rw [if_pos h]
  rfl

theorem stepEntry_bal_none (nl : List Account) (st : Balances) (b : BalanceDir)
    (h : ¬ nl.contains b.account = true) :
    stepEntry nl st (Entry.bal b) = none := by
  show (if nl.contains b.account = true then _ else none) = none
  rw [if_neg h]

/-- Inversion of a successful replay step: the state either absorbed the
transaction's postings (entry echoed, no error), or (assertion) is
unchanged with the entry echoed or replaced by its diff-annotated copy. -/
theorem stepEntry_inv {nl : List Account} {st : Balances} {e : Entry}
    {st1 : Balances} {oe : Entry} {errs : List BalanceError}
    (h : stepEntry nl st e = some (st1, oe, errs)) :
    (∃ t, e = Entry.txn t ∧ st1 = t.postings.foldl (applyPosting nl) st
        ∧ oe = e ∧ errs = []) ∨
    (∃ b, e = Entry.bal b ∧ st1 = st ∧
        (oe = e ∧ errs = [] ∨
         ∃ d er, oe = Entry.bal ⟨b.fileloc, b.date, b.account, b.amount, some d⟩
            ∧ errs = [er])) := by
  cases e with
  | txn t =>
    rw [stepEntry_txn_eq] at h
    have h' := Option.some.inj h
    refine Or.inl ⟨t, rfl, (congrArg Prod.fst h').symm, ?_, ?_⟩
    · exact (congrArg Prod.fst (congrArg Prod.snd h')).symm
    · exact (congrArg Prod.snd (congrArg Prod.snd h')).symm
  | bal b =>
    by_cases hc : nl.contains b.account = true
    · rw [stepEntry_bal_eq nl st b hc] at h
      by_cases hd : |subtreeAmount nl st b.account b.amount.currency - b.amount.number|
          > CHECK_PRECISION
      · rw [if_pos hd] at h
        have h' := Option.some.inj h
        refine Or.inr ⟨b, rfl, (congrArg Prod.fst h').symm, Or.inr
          ⟨⟨subtreeAmount nl st b.account b.amount.currency - b.amount.number,
            b.amount.currency⟩,
           ⟨b.fileloc,
            ⟨b.account,
             ⟨subtreeAmount nl st b.account b.amount.currency, b.amount.currency⟩,
             b.amount,
             ⟨subtreeAmount nl st b.account b.amount.currency - b.amount.number,
              b.amount.currency⟩,
             directionLabel ⟨subtreeAmount nl st b.account b.amount.currency
                - b.amount.number, b.amount.currency⟩⟩,
            .bal b⟩,
           (congrArg Prod.fst (congrArg Prod.snd h')).symm,
           (congrArg Prod.snd (congrArg Prod.snd h')).symm⟩⟩
      · rw [if_neg hd] at h
        have h' := Option.some.inj h
        refine Or.inr ⟨b, rfl, (congrArg Prod.fst h').symm, Or.inl ⟨?_, ?_⟩⟩
        · exact (congrArg Prod.fst (congrArg Prod.snd h')).symm
        · exact (congrArg Prod.snd (congrArg Prod.snd h')).symm
    · rw [stepEntry_bal_none nl st b hc] at h
      cases h

/-- A step never mutates the state except through the transaction's
postings, and any assertion leaves it untouched. -/
theorem stepEntry_state {nl : List Account} {st : Balances} {e : Entry}
    {st1 : Balances} {oe : Entry} {errs : List BalanceError}
    (h : stepEntry nl st e = some (st1, oe, errs)) :
    st1 = (match e with
      | Entry.txn t => t.postings.foldl (applyPosting nl) st
      | Entry.bal _ => st) := by
  rcases stepEntry_inv h with ⟨t, rfl, h1, _⟩ | ⟨b, rfl, h1, _⟩
  · exact h1
  · exact h1

theorem replay_nil (nl : List Account) (st : Balances) :
    replay nl [] st = some (st, [], []) := rfl

theorem replay_cons (nl : List Account) (e : Entry) (l : List Entry) (st : Balances) :
    replay nl (e :: l) st
      = (stepEntry nl st e).bind fun r =>
          (replay nl l r.1).bind fun r2 =>
            some (r2.1, r.2.1 :: r2.2.1, r.2.2 ++ r2.2.2) := rfl

theorem replay_cons_some {nl : List Account} {e : Entry} {st st1 : Balances}
    {oe : Entry} {errs1 : List BalanceError} (l : List Entry)
    (hs : stepEntry nl st e = some (st1, oe, errs1)) :
    replay nl (e :: l) st
      = (replay nl l st1).bind fun r2 => some (r2.1, oe :: r2.2.1, errs1 ++ r2.2.2) := by
  rw [replay_cons, hs, Option.some_bind]

/-- Replay splits over list concatenation: entries of the first segment
are processed first, and both the rewritten entries and the errors of
the second segment are appended after those of the first — the output
and error lists are in entry-encounter order. -/
theorem replay_append (nl : List Account) (l1 l2 : List Entry) (st : Balances) :
    replay nl (l1 ++ l2) st
      = (replay nl l1 st).bind fun r =>
          (replay nl l2 r.1).map fun r2 => (r2.1, r.2.1 ++ r2.2.1, r.2.2 ++ r2.2.2) := by
  induction l1 generalizing st with
  | nil =>
    rw [List.nil_append, replay_nil, Option.some_bind]
    cases hr : replay nl l2 st with
    | none => rfl
    | some r2 => simp
  | cons e l1 ih =>
    rw [List.cons_append, replay_cons, replay_cons]
    cases hs : stepEntry nl st e with
    | none => rw [Option.none_bind, Option.none_bind, Option.none_bind]
    | some r1 =>
      rw [Option.some_bind, Option.some_bind, ih r1.1]
      cases h1 : replay nl l1 r1.1 with
      | none => rw [Option.none_bind, Option.none_bind, Option.none_bind]
      | some r =>
        rw [Option.some_bind, Option.some_bind]
        cases h2 : replay nl l2 r.1 with
        | none => simp [h2]
        | some r2 => simp [h2]

/-- Inversion of a successful replay over a cons cell. -/
theorem replay_cons_inv {nl : List Account} {e : Entry} {l : List Entry}
    {st st2 : Balances} {out : List Entry} {errs : List BalanceError}
    (h : replay nl (e :: l) st = some (st2, out, errs)) :
    ∃ st1 oe errs1 outR errs2,
      stepEntry nl st e = some (st1, oe, errs1) ∧
      replay nl l st1 = some (st2, outR, errs2) ∧
      out = oe :: outR ∧ errs = errs1 ++ errs2 := by
  rw [replay_cons] at h
  cases hs : stepEntry nl st e with
  | none => rw [hs, Option.none_bind] at h; cases h
  | some r1 =>
    rw [hs, Option.some_bind] at h
    cases hr : replay nl l r1.1 with
    | none => rw [hr, Option.none_bind] at h; cases h
    | some r =>
      rw [hr, Option.some_bind] at h
      have h' := Option.some.inj h
      have hfst : st2 = r.1 := (congrArg Prod.fst h').symm
      refine ⟨r1.1, r1.2.1, r1.2.2, r.2.1, r.2.2, ?_, ?_, ?_, ?_⟩
      · rfl
      · rw [hr, hfst]
      · exact (congrArg Prod.fst (congrArg Prod.snd h')).symm
      · exact (congrArg Prod.snd (congrArg Prod.snd h')).symm

/-- A successful replay's final state is the pure state projection
(assertion outcomes never influence the accumulated balances). -/
theorem replay_state_proj {nl : List Account} {l : List Entry} {st st2 : Balances}
    {out : List Entry} {errs : List BalanceError}
    (h : replay nl l st = some (st2, out, errs)) :
    st2 = replayState nl l st := by
  induction l generalizing st out errs with
  | nil =>
    rw [replay_nil] at h
    have h' := Option.some.inj h
    exact (congrArg Prod.fst h').symm
  | cons e l ih =>
    obtain ⟨st1, oe, errs1, outR, errs2, hs, hr, _, _⟩ := replay_cons_inv h
    have hst1 := stepEntry_state hs
    cases e with
    | txn t =>
      have hfold : st1 = t.postings.foldl (applyPosting nl) st := hst1
      have hrs : replayState nl (Entry.txn t :: l) st
          = replayState nl l (t.postings.foldl (applyPosting nl) st) := rfl
      rw [hrs, ← hfold]
      exact ih hr
    | bal b =>
      have hkeep : st1 = st := hst1
      have hrs : replayState nl (Entry.bal b :: l) st = replayState nl l st := rfl
      rw [hrs, ← hkeep]
      exact ih hr

/-- Replay rewrites the list pointwise: every output entry is the input
entry at the same position, or its diff-annotated assertion copy. -/
theorem replay_forall2 {nl : List Account} {l : List Entry} {st st2 : Balances}
    {out : List Entry} {errs : List BalanceError}
    (h : replay nl l st = some (st2, out, errs)) :
    List.Forall₂ entryRel l out := by
  induction l generalizing st st2 out errs with
  | nil =>
    rw [replay_nil] at h
    have h' := Option.some.inj h
    have hout : ([] : List Entry) = out := congrArg Prod.fst (congrArg Prod.snd h')
    rw [← hout]
    exact List.Forall₂.nil
  | cons e l ih =>
    obtain ⟨st1, oe, errs1, outR, errs2, hs, hr, hout, _⟩ := replay_cons_inv h
    rw [hout]
    refine List.Forall₂.cons ?_ (ih hr)
    rcases stepEntry_inv hs with ⟨t, he, _, hoe, _⟩ | ⟨b, he, _, hcase⟩
    · exact Or.inl hoe
    · rcases hcase with ⟨hoe, _⟩ | ⟨d, er, hoe, _⟩
      · exact Or.inl hoe
      · exact Or.inr ⟨b, d, he, hoe⟩

/-- A replay that emitted no errors echoed every entry unchanged. -/
theorem replay_no_errors_id {nl : List Account} {l : List Entry} {st st2 : Balances}
    {out : List Entry}
    (h : replay nl l st = some (st2, out, [])) :
    out = l := by
  induction l generalizing st st2 out with
  | nil =>
    rw [replay_nil] at h
    have h' := Option.some.inj h
    exact (congrArg Prod.fst (congrArg Prod.snd h')).symm
  | cons e l ih =>
    obtain ⟨st1, oe, errs1, outR, errs2, hs, hr, hout, herr⟩ := replay_cons_inv h
    have hnil := List.append_eq_nil.mp herr.symm
    rw [hnil.2] at hr
    have houtR := ih hr
    rcases stepEntry_inv hs with ⟨t, he, _, hoe, _⟩ | ⟨b, he, _, hcase⟩
    · rw [hout, hoe, houtR]
    · rcases hcase with ⟨hoe, _⟩ | ⟨d, er, _, herr1⟩
      · rw [hout, hoe, houtR]
      · rw [hnil.1] at herr1
        cases herr1

/-- If every assertion of the list has a tracked node, replay cannot hit
the fatal missing-node branch. -/
theorem replay_isSome {nl : List Account} {l : List Entry} (st : Balances)
    (hb : ∀ b, Entry.bal b ∈ l → nl.contains b.account = true) :
    (replay nl l st).isSome = true := by
  induction l generalizing st with
  | nil => rfl
  | cons e l ih =>
    have hstep : ∃ r, stepEntry nl st e = some r := by
      cases e with
      | txn t => exact ⟨_, stepEntry_txn_eq nl st t⟩
      | bal b =>
        have hc := hb b (List.mem_cons_self _ _)
        by_cases hd : |subtreeAmount nl st b.account b.amount.currency - b.amount.number|
            > CHECK_PRECISION
        · exact ⟨_, (stepEntry_bal_eq nl st b hc).trans (if_pos hd)⟩
        · exact ⟨_, (stepEntry_bal_eq nl st b hc).trans (if_neg hd)⟩
    obtain ⟨r, hrstep⟩ := hstep
    rw [replay_cons, hrstep, Option.some_bind]
    have ihr := ih r.1 (fun b hbm => hb b (List.mem_cons_of_mem _ hbm))
    cases hrep : replay nl l r.1 with
    | none => rw [hrep] at ihr; cases ihr
    | some rr => rfl

/-- Every account directly named in a Balance directive of the ledger
has a node after selection. -/
theorem asserted_mem_nodeList {es : List Entry} {b : BalanceDir}
    (hb : Entry.bal b ∈ es) : (nodeList es).contains b.account = true := by
  rw [contains_true_iff]
  apply mem_nodeList_iff.mpr
  refine ⟨b.account, ?_, inSubtreeB_refl _⟩
  apply mem_selectedAccounts_iff.mpr
  constructor
  · exact List.mem_flatMap.mpr ⟨Entry.bal b, hb, by simp⟩
  · exact ⟨b.account, List.mem_filterMap.mpr ⟨Entry.bal b, hb, rfl⟩, strPrefixB_refl _⟩

/-- Inversion of a successful `check`: the replay succeeded with the
same outputs. -/
theorem check_inv {es : List Entry} {cfg : OptionsMap} {out : List Entry}
    {errs : List BalanceError}
    (h : check es cfg = some (out, errs)) :
    ∃ st2, replay (nodeList es) es initB = some (st2, out, errs) := by
  unfold check at h
  rcases Option.map_eq_some'.mp h with ⟨r, hr, hrf⟩
  refine ⟨r.1, ?_⟩
  rw [hr]
  have h1 : out = r.2.1 := (congrArg Prod.fst hrf).symm
  have h2 : errs = r.2.2 := (congrArg Prod.snd hrf).symm
  rw [h1, h2]

theorem postingsOf_dropPostingsTo (a : Account) (l : List Entry) :
    postingsOf (dropPostingsTo a l)
      = (postingsOf l).filter fun p => !(p.account == a) := by
  induction l with
  | nil => rfl
  | cons e l ih =>
    cases e with
    | txn t =>
      have h1 : dropPostingsTo a (Entry.txn t :: l)
          = Entry.txn ⟨t.fileloc, t.date, t.postings.filter fun p => !(p.account == a)⟩
              :: dropPostingsTo a l := rfl
      rw [h1, postingsOf_cons_txn, ih, postingsOf_cons_txn, List.filter_append]
    | bal b =>
      have h1 : dropPostingsTo a (Entry.bal b :: l)
          = Entry.bal b :: dropPostingsTo a l := rfl
      rw [h1, postingsOf_cons_bal, ih, postingsOf_cons_bal]

/-- An account that the spec's words leave untracked lies in no asserted
account's subtree. -/
theorem specTracked_false_not_inSubtree {es : List Entry} {a acct : Account}
    (hu : specTrackedAccount es a = false) (hacct : acct ∈ assertedAccounts es) :
    inSubtreeB acct a = false := by
  unfold specTrackedAccount at hu
  rw [Bool.or_eq_false_iff, Bool.or_eq_false_iff] at hu
  obtain ⟨⟨h1, _⟩, h3⟩ := hu
  unfold inSubtreeB
  rw [Bool.or_eq_false_iff]
  constructor
  · cases hbeq : (acct == a) with
    | false => rfl
    | true =>
      have ha : a ∈ assertedAccounts es := by
        rw [← beq_iff_eq.mp hbeq]
        exact hacct
      have := contains_true_iff.mpr ha
      rw [h1] at this
      cases this
  · cases hpre : strPrefixB (acct ++ ":") a with
    | false => rfl
    | true =>
      have := List.any_eq_false.mp h3 acct hacct
      rw [hpre] at this
      exact absurd rfl this

/-- Postings to an account outside the subtree of `acct` contribute
nothing: dropping them leaves the subtree sum unchanged. -/
theorem postSum_drop {nl : List Account} {ps : List Posting} {a acct : Account}
    {c : Currency} (hns : inSubtreeB acct a = false) :
    postSum nl (ps.filter fun p => !(p.account == a)) acct c = postSum nl ps acct c := by
  unfold postSum
  rw [List.filter_filter]
  refine congrArg List.sum (congrArg (List.map fun (p : Posting) => p.position.number) ?_)
  apply List.filter_congr
  intro p _
  by_cases hacc : p.account = a
  · have hsub : inSubtreeB acct p.account = false := by
      rw [hacc]
      exact hns
    simp [hsub]
  · simp [hacc]

/-! ### Claim theorems -/

/-- C1: for every assertion evaluated during the replay, the amount the
Balance branch compares against the expected amount (`subtreeAmount` at
the evaluation state, see `stepEntry_bal_eq`) equals the sum, over the
assertion's hierarchy node and all its tracked descendants, of those
nodes' own inventories restricted to the assertion's declared currency:
in raw-ledger form, the sum of the tracked postings into the subtree in
exactly that currency (`subtreePostSum`), which is zero when the currency
never appeared; amounts accumulated in other currencies never enter it. -/
theorem claim1_compared_amount_is_subtree_currency_sum
    (es l : List Entry) (acct : Account) (c : Currency) :
    subtreeAmount (nodeList es) (replayState (nodeList es) l initB) acct c
      = subtreePostSum (nodeList es) l acct c
    ∧ ∀ st2 out errs, replay (nodeList es) l initB = some (st2, out, errs) →
        subtreeAmount (nodeList es) st2 acct c = subtreePostSum (nodeList es) l acct c := by
  have hnd := nodeList_nodup es
  constructor
  · rw [subtreeAmount_replayState hnd l initB acct c, subtreeAmount_initB, zero_add]
  · intro st2 out errs h
    rw [replay_state_proj h,
      subtreeAmount_replayState hnd l initB acct c, subtreeAmount_initB, zero_add]

/-- Witness for C1, the spec's P4 instance: +10 CUR to `A:B:C` and
+5 CUR to `A:B:S`; the amount compared for an assertion on the parent
`A:B` is the subtree sum 15. -/
theorem claim1_witness :
    replay (nodeList esSubtree) esSubtree initB
        = some (replayState (nodeList esSubtree) esSubtree initB, esSubtree, []) ∧
    subtreeAmount (nodeList esSubtree) (replayState (nodeList esSubtree) esSubtree initB)
        "A:B" "CUR" = subtreePostSum (nodeList esSubtree) esSubtree "A:B" "CUR" ∧
    subtreePostSum (nodeList esSubtree) esSubtree "A:B" "CUR" = 15 := by
  have hrep : replay (nodeList esSubtree) esSubtree initB
      = some (replayState (nodeList esSubtree) esSubtree initB, esSubtree, []) := by
    with_unfolding_all rfl
  exact ⟨hrep,
    (claim1_compared_amount_is_subtree_currency_sum esSubtree esSubtree "A:B" "CUR").2
      _ _ _ hrep,
    by with_unfolding_all rfl⟩

/-- C2: when an assertion's node exists, the step on it emits an error
iff the absolute difference between the accumulated and the expected
amount strictly exceeds the tolerance `CHECK_PRECISION = 0.015` (so a
difference of exactly 0.015 passes), the state is unchanged, and the
replay continues over the remaining entries in either case. -/
theorem claim2_error_iff_tolerance_exceeded
    (nl : List Account) (st : Balances) (b : BalanceDir)
    (h : nl.contains b.account = true) :
    (stepEntry nl st (Entry.bal b)).isSome = true ∧
    ∀ st1 oe errs, stepEntry nl st (Entry.bal b) = some (st1, oe, errs) →
      st1 = st ∧
      (errs ≠ [] ↔
        |subtreeAmount nl st b.account b.amount.currency - b.amount.number|
          > CHECK_PRECISION) ∧
      ∀ l, replay nl (Entry.bal b :: l) st
          = (replay nl l st).bind fun r2 => some (r2.1, oe :: r2.2.1, errs ++ r2.2.2) := by
  by_cases hd : |subtreeAmount nl st b.account b.amount.currency - b.amount.number|
      > CHECK_PRECISION
  · have hstep := (stepEntry_bal_eq nl st b h).trans (if_pos hd)
    constructor
    · rw [hstep]
      rfl
    · intro st1 oe errs hsome
      rw [hstep] at hsome
      have h' := Option.some.inj hsome
      have hst : st = st1 := congrArg Prod.fst h'
      have herrs : errs = [⟨b.fileloc,
          ⟨b.account,
           ⟨subtreeAmount nl st b.account b.amount.currency, b.amount.currency⟩,
           b.amount,
           ⟨subtreeAmount nl st b.account b.amount.currency - b.amount.number,
            b.amount.currency⟩,
           directionLabel ⟨subtreeAmount nl st b.account b.amount.currency
              - b.amount.number, b.amount.currency⟩⟩,
          .bal b⟩] := (congrArg Prod.snd (congrArg Prod.snd h')).symm
      refine ⟨hst.symm, ?_, ?_⟩
      · rw [herrs]
        simp [hd]
      · intro l
        have hsome2 := hstep.trans hsome
        have hrc := replay_cons_some l hsome2
        rw [← hst] at hrc
        exact hrc
  · have hstep := (stepEntry_bal_eq nl st b h).trans (if_neg hd)
    constructor
    · rw [hstep]
      rfl
    · intro st1 oe errs hsome
      rw [hstep] at hsome
      have h' := Option.some.inj hsome
      have hst : st = st1 := congrArg Prod.fst h'
      have herrs : errs = [] := (congrArg Prod.snd (congrArg Prod.snd h')).symm
      refine ⟨hst.symm, ?_, ?_⟩
      · rw [herrs]
        simp [hd]
      · intro l
        have hsome2 := hstep.trans hsome
        have hrc := replay_cons_some l hsome2
        rw [← hst] at hrc
        exact hrc

/-- Witness for C2, the spec's P3 boundary instance: expected −0.015 and
accumulated 0, so the difference is exactly the tolerance and no error
is emitted. -/
theorem claim2_witness :
    (["A"] : List Account).contains "A" = true ∧
    stepEntry ["A"] initB (Entry.bal ⟨floc, 1, "A", ⟨-(15/1000 : ℚ), "USD"⟩, none⟩)
      = some (initB, Entry.bal ⟨floc, 1, "A", ⟨-(15/1000 : ℚ), "USD"⟩, none⟩, []) ∧
    (([] : List BalanceError) ≠ [] ↔
      |subtreeAmount ["A"] initB "A" "USD" - (-(15/1000 : ℚ))| > CHECK_PRECISION) := by
  have hc : (["A"] : List Account).contains "A" = true := by decide
  have hstep : stepEntry ["A"] initB
        (Entry.bal ⟨floc, 1, "A", ⟨-(15/1000 : ℚ), "USD"⟩, none⟩)
      = some (initB, Entry.bal ⟨floc, 1, "A", ⟨-(15/1000 : ℚ), "USD"⟩, none⟩, []) := by
    with_unfolding_all rfl
  refine ⟨hc, hstep, ?_⟩
  exact ((claim2_error_iff_tolerance_exceeded ["A"] initB
    ⟨floc, 1, "A", ⟨-(15/1000 : ℚ), "USD"⟩, none⟩ hc).2 _ _ _ hstep).2.1

/-- C3: for every input on which the pass succeeds, the output entry list
has exactly the input's length and relates to it pointwise (each output
entry is the input entry at that position, unchanged or replaced
one-to-one by its diff-annotated assertion copy; nothing inserted or
deleted), and replay concatenates outputs and errors of consecutive
segments in encounter order. -/
theorem claim3_length_order_preserved
    (es : List Entry) (cfg : OptionsMap) (out : List Entry) (errs : List BalanceError)
    (h : check es cfg = some (out, errs)) :
    (out.length = es.length ∧ List.Forall₂ entryRel es out) ∧
    ∀ (nl : List Account) (l1 l2 : List Entry) (st : Balances),
      replay nl (l1 ++ l2) st
        = (replay nl l1 st).bind fun r =>
            (replay nl l2 r.1).map fun r2 => (r2.1, r.2.1 ++ r2.2.1, r.2.2 ++ r2.2.2) := by
  obtain ⟨st2, hrep⟩ := check_inv h
  have hf := replay_forall2 hrep
  exact ⟨⟨hf.length_eq.symm, hf⟩, fun nl l1 l2 st => replay_append nl l1 l2 st⟩

/-- Witness for C3 on a concrete ledger (a passing run, where the output
equals the input verbatim). -/
theorem claim3_witness :
    check esPrefixC5 noOptions = some (esPrefixC5, []) ∧
    ((esPrefixC5.length = esPrefixC5.length ∧ List.Forall₂ entryRel esPrefixC5 esPrefixC5) ∧
     ∀ (nl : List Account) (l1 l2 : List Entry) (st : Balances),
       replay nl (l1 ++ l2) st
         = (replay nl l1 st).bind fun r =>
             (replay nl l2 r.1).map fun r2 => (r2.1, r.2.1 ++ r2.2.1, r.2.2 ++ r2.2.2)) := by
  have hchk : check esPrefixC5 noOptions = some (esPrefixC5, []) := by
    with_unfolding_all rfl
  exact ⟨hchk, claim3_length_order_preserved esPrefixC5 noOptions esPrefixC5 [] hchk⟩

/-- C4: the frame of a replay step.  A transaction is echoed unchanged
with no error.  An assertion that passes is echoed unchanged, its diff
field staying absent; one that fails is replaced by a copy agreeing on
location, date, account and expected amount, whose diff field carries
the signed difference accumulated − expected, alongside one error whose
`entry` field is the original assertion. -/
theorem claim4_replacement_frame (nl : List Account) (st : Balances) :
    (∀ t, stepEntry nl st (Entry.txn t)
        = some (t.postings.foldl (applyPosting nl) st, Entry.txn t, [])) ∧
    ∀ b, nl.contains b.account = true →
      (¬ |subtreeAmount nl st b.account b.amount.currency - b.amount.number|
           > CHECK_PRECISION →
        stepEntry nl st (Entry.bal b) = some (st, Entry.bal b, [])) ∧
      (|subtreeAmount nl st b.account b.amount.currency - b.amount.number|
           > CHECK_PRECISION →
        stepEntry nl st (Entry.bal b) = some (st,
          Entry.bal ⟨b.fileloc, b.date, b.account, b.amount,
            some ⟨subtreeAmount nl st b.account b.amount.currency - b.amount.number,
                  b.amount.currency⟩⟩,
          [⟨b.fileloc,
            ⟨b.account,
             ⟨subtreeAmount nl st b.account b.amount.currency, b.amount.currency⟩,
             b.amount,
             ⟨subtreeAmount nl st b.account b.amount.currency - b.amount.number,
              b.amount.currency⟩,
             directionLabel ⟨subtreeAmount nl st b.account b.amount.currency
                - b.amount.number, b.amount.currency⟩⟩,
            Entry.bal b⟩])) := by
  refine ⟨fun t => stepEntry_txn_eq nl st t, fun b hc => ⟨?_, ?_⟩⟩
  · intro hd
    exact (stepEntry_bal_eq nl st b hc).trans (if_neg hd)
  · intro hd
    exact (stepEntry_bal_eq nl st b hc).trans (if_pos hd)

/-- Witness for C4: a failing assertion (expected 50, accumulated 0) is
replaced by a copy whose only changed field is the populated diff. -/
theorem claim4_witness :
    (["A"] : List Account).contains "A" = true ∧
    |subtreeAmount ["A"] initB "A" "USD" - (50 : ℚ)| > CHECK_PRECISION ∧
    stepEntry ["A"] initB (Entry.bal ⟨floc, 2, "A", ⟨50, "USD"⟩, none⟩)
      = some (initB,
          Entry.bal ⟨floc, 2, "A", ⟨50, "USD"⟩,
            some ⟨subtreeAmount ["A"] initB "A" "USD" - (50 : ℚ), "USD"⟩⟩,
          [⟨floc,
            ⟨"A", ⟨subtreeAmount ["A"] initB "A" "USD", "USD"⟩, ⟨50, "USD"⟩,
             ⟨subtreeAmount ["A"] initB "A" "USD" - (50 : ℚ), "USD"⟩,
             directionLabel ⟨subtreeAmount ["A"] initB "A" "USD" - (50 : ℚ), "USD"⟩⟩,
            Entry.bal ⟨floc, 2, "A", ⟨50, "USD"⟩, none⟩⟩]) ∧
    subtreeAmount ["A"] initB "A" "USD" - (50 : ℚ) = -50 := by
  have hc : (["A"] : List Account).contains "A" = true := by decide
  have hd : |subtreeAmount ["A"] initB "A" "USD" - (50 : ℚ)| > CHECK_PRECISION := by
    with_unfolding_all decide
  refine ⟨hc, hd, ?_, by with_unfolding_all rfl⟩
  exact ((claim4_replacement_frame ["A"] initB).2
    ⟨floc, 2, "A", ⟨50, "USD"⟩, none⟩ hc).2 hd

/-- C5 counterexample: in the ledger `esPrefixC5` the only assertion
names `A:B` and the only posting goes to `A:BX`.  `A:BX` is not tracked
by the spec's words (not asserted, not a delimiter ancestor, not a
delimiter descendant of `A:B`), yet a hierarchy node exists for it,
because the source's selection uses a bare string `startswith` without
requiring the delimiter. -/
theorem claim5_counterexample :
    (nodeList esPrefixC5).contains "A:BX" = true ∧
    specTrackedAccount esPrefixC5 "A:BX" = false := by
  constructor
  · decide
  · decide

/-- C5 (amended): after Selection, a node exists at path `A` iff `A` is
a delimiter-ancestor-or-equal of some account `B` appearing in the
ledger such that `B` starts, as a bare string, with some asserted
account (delimiter-descendants are a special case of the string prefix,
but string-prefix extensions such as `A:BX` under asserted `A:B` are
also tracked). -/
theorem claim5_amended_node_exists_iff (es : List Entry) (a : Account) :
    (nodeList es).contains a = true ↔
      ∃ b, b ∈ getAccounts es ∧
        (∃ s ∈ assertedAccounts es, strPrefixB s b = true) ∧
        (a = b ∨ strPrefixB (a ++ ":") b = true) := by
  rw [contains_true_iff, mem_nodeList_iff]
  constructor
  · rintro ⟨b, hb, hsub⟩
    rcases mem_selectedAccounts_iff.mp hb with ⟨hga, s, hs, hps⟩
    exact ⟨b, hga, ⟨s, hs, hps⟩, inSubtreeB_iff.mp hsub⟩
  · rintro ⟨b, hga, ⟨s, hs, hps⟩, hsub⟩
    exact ⟨b, mem_selectedAccounts_iff.mpr ⟨hga, s, hs, hps⟩, inSubtreeB_iff.mpr hsub⟩

/-- C6 counterexample: in `esPrefixC6` the account `A:BX` is untracked in
the spec's sense, yet a node exists for it and the posting of +7 EUR to
it does change that node's inventory — refuting the claim's "no node
exists for it" and "they change no node's inventory". -/
theorem claim6_counterexample :
    specTrackedAccount esPrefixC6 "A:BX" = false ∧
    (nodeList esPrefixC6).contains "A:BX" = true ∧
    replayState (nodeList esPrefixC6) esPrefixC6 initB "A:BX" "EUR" = 7 := by
  refine ⟨by decide, by decide, ?_⟩
  with_unfolding_all rfl

/-- C6 (amended): an account that is neither asserted, nor a delimiter
ancestor of an asserted account, nor a delimiter descendant of one, lies
in no asserted account's subtree, so postings to it never contribute to
the subtree sum any assertion compares (dropping them leaves every such
sum unchanged) — even though, when it string-extends an asserted
account, a node may exist for it and absorb its postings. -/
theorem claim6_amended_untracked_no_effect
    (es l : List Entry) (a acct : Account) (c : Currency)
    (hu : specTrackedAccount es a = false)
    (hacct : acct ∈ assertedAccounts es) :
    inSubtreeB acct a = false ∧
    subtreePostSum (nodeList es) (dropPostingsTo a l) acct c
      = subtreePostSum (nodeList es) l acct c := by
  have hns := specTracked_false_not_inSubtree hu hacct
  refine ⟨hns, ?_⟩
  unfold subtreePostSum
  rw [postingsOf_dropPostingsTo]
  exact postSum_drop hns

/-- Witness for C6 (amended) at the concrete ledger `esPrefixC6`. -/
theorem claim6_witness :
    specTrackedAccount esPrefixC6 "A:BX" = false ∧
    "A:B" ∈ assertedAccounts esPrefixC6 ∧
    (inSubtreeB "A:B" "A:BX" = false ∧
     subtreePostSum (nodeList esPrefixC6) (dropPostingsTo "A:BX" esPrefixC6) "A:B" "EUR"
       = subtreePostSum (nodeList esPrefixC6) esPrefixC6 "A:B" "EUR") := by
  have hu : specTrackedAccount esPrefixC6 "A:BX" = false := by decide
  have hacct : "A:B" ∈ assertedAccounts esPrefixC6 := by decide
  exact ⟨hu, hacct,
    claim6_amended_untracked_no_effect esPrefixC6 esPrefixC6 "A:BX" "A:B" "EUR" hu hacct⟩

/-- C7: the direction label is derived from whether the difference is
nonzero, not from its sign — `"too much"` for every nonzero difference
(positive or negative), `"too little"` only for an exactly-zero
difference — and consequently every error the step actually emits (whose
difference exceeds the tolerance, hence is nonzero) is labelled
`"too much"`. -/
theorem claim7_direction_label :
    (∀ a : Amount, (a.number ≠ 0 → directionLabel a = "too much") ∧
       (a.number = 0 → directionLabel a = "too little")) ∧
    ∀ (nl : List Account) (st : Balances) (e : Entry) (st1 : Balances)
      (oe : Entry) (errs : List BalanceError) (er : BalanceError),
      stepEntry nl st e = some (st1, oe, errs) → er ∈ errs →
        er.message.label = "too much" ∧ er.message.diff.number ≠ 0 := by
  constructor
  · intro a
    constructor
    · intro h
      unfold directionLabel amountTruthy
      rw [if_pos (by simpa using h)]
    · intro h
      unfold directionLabel amountTruthy
      rw [if_neg (by simpa using h)]
  · intro nl st e st1 oe errs er hstep hmem
    cases e with
    | txn t =>
      rw [stepEntry_txn_eq] at hstep
      have h' := Option.some.inj hstep
      have herrs : errs = [] := (congrArg Prod.snd (congrArg Prod.snd h')).symm
      rw [herrs] at hmem
      cases hmem
    | bal b =>
      by_cases hc : nl.contains b.account = true
      · rw [stepEntry_bal_eq nl st b hc] at hstep
        by_cases hd : |subtreeAmount nl st b.account b.amount.currency - b.amount.number|
            > CHECK_PRECISION
        · rw [if_pos hd] at hstep
          have h' := Option.some.inj hstep
          have herrs : errs = [⟨b.fileloc,
              ⟨b.account,
               ⟨subtreeAmount nl st b.account b.amount.currency, b.amount.currency⟩,
               b.amount,
               ⟨subtreeAmount nl st b.account b.amount.currency - b.amount.number,
                b.amount.currency⟩,
               directionLabel ⟨subtreeAmount nl st b.account b.amount.currency
                  - b.amount.number, b.amount.currency⟩⟩,
              Entry.bal b⟩] :=
            (congrArg Prod.snd (congrArg Prod.snd h')).symm
          rw [herrs] at hmem
          rcases List.mem_singleton.mp hmem with rfl
          have hnz : subtreeAmount nl st b.account b.amount.currency - b.amount.number ≠ 0 := by
            intro h0
            rw [h0] at hd
            simp [CHECK_PRECISION] at hd
            exact absurd hd (by norm_num)
          constructor
          · show directionLabel _ = "too much"
            unfold directionLabel amountTruthy
            rw [if_pos (by simpa using hnz)]
          · exact hnz
        · rw [if_neg hd] at hstep
          have h' := Option.some.inj hstep
          have herrs : errs = [] := (congrArg Prod.snd (congrArg Prod.snd h')).symm
          rw [herrs] at hmem
          cases hmem
      · rw [stepEntry_bal_none nl st b hc] at hstep
        cases hstep

/-- Witness for C7: the concrete failing step of `claim4_witness` emits
one error carrying the label `"too much"` even though its difference is
negative (−50). -/
theorem claim7_witness :
    stepEntry ["A"] initB (Entry.bal ⟨floc, 2, "A", ⟨50, "USD"⟩, none⟩)
      = some (initB,
          Entry.bal ⟨floc, 2, "A", ⟨50, "USD"⟩, some ⟨-50, "USD"⟩⟩,
          [⟨floc, ⟨"A", ⟨0, "USD"⟩, ⟨50, "USD"⟩, ⟨-50, "USD"⟩, "too much"⟩,
            Entry.bal ⟨floc, 2, "A", ⟨50, "USD"⟩, none⟩⟩]) ∧
    (⟨floc, ⟨"A", ⟨0, "USD"⟩, ⟨50, "USD"⟩, ⟨-50, "USD"⟩, "too much"⟩,
       Entry.bal ⟨floc, 2, "A", ⟨50, "USD"⟩, none⟩⟩ : BalanceError)
      ∈ [(⟨floc, ⟨"A", ⟨0, "USD"⟩, ⟨50, "USD"⟩, ⟨-50, "USD"⟩, "too much"⟩,
          Entry.bal ⟨floc, 2, "A", ⟨50, "USD"⟩, none⟩⟩ : BalanceError)] ∧
    ((⟨floc, ⟨"A", ⟨0, "USD"⟩, ⟨50, "USD"⟩, ⟨-50, "USD"⟩, "too much"⟩,
       Entry.bal ⟨floc, 2, "A", ⟨50, "USD"⟩, none⟩⟩ : BalanceError).message.label
        = "too much" ∧
     (⟨floc, ⟨"A", ⟨0, "USD"⟩, ⟨50, "USD"⟩, ⟨-50, "USD"⟩, "too much"⟩,
       Entry.bal ⟨floc, 2, "A", ⟨50, "USD"⟩, none⟩⟩ : BalanceError).message.diff.number ≠ 0) := by
  have hstep : stepEntry ["A"] initB (Entry.bal ⟨floc, 2, "A", ⟨50, "USD"⟩, none⟩)
      = some (initB,
          Entry.bal ⟨floc, 2, "A", ⟨50, "USD"⟩, some ⟨-50, "USD"⟩⟩,
          [⟨floc, ⟨"A", ⟨0, "USD"⟩, ⟨50, "USD"⟩, ⟨-50, "USD"⟩, "too much"⟩,
            Entry.bal ⟨floc, 2, "A", ⟨50, "USD"⟩, none⟩⟩]) := by
    with_unfolding_all rfl
  have hmem : (⟨floc, ⟨"A", ⟨0, "USD"⟩, ⟨50, "USD"⟩, ⟨-50, "USD"⟩, "too much"⟩,
       Entry.bal ⟨floc, 2, "A", ⟨50, "USD"⟩, none⟩⟩ : BalanceError)
      ∈ [(⟨floc, ⟨"A", ⟨0, "USD"⟩, ⟨50, "USD"⟩, ⟨-50, "USD"⟩, "too much"⟩,
          Entry.bal ⟨floc, 2, "A", ⟨50, "USD"⟩, none⟩⟩ : BalanceError)] :=
    List.mem_singleton.mpr rfl
  exact ⟨hstep, hmem, claim7_direction_label.2 _ _ _ _ _ _ _ hstep hmem⟩

/-- C8 counterexample: on a ledger with an assertion that misses by 50,
an options map supplying a loose tolerance of 1000 yields exactly the
same result as the empty options map — one error is still emitted — so
no configuration supplying a different tolerance changes the pass's
result. -/
theorem claim8_counterexample :
    check esFailing looseOptions = check esFailing noOptions ∧
    (check esFailing looseOptions).map (fun r => r.2.length) = some 1 := by
  constructor
  · rfl
  · with_unfolding_all decide

/-- C8 (amended): the tolerance is the fixed module constant
`CHECK_PRECISION = 0.015`; the configuration object passed into the pass
is ignored (the parameter is named `unused_options_map` in the source),
so the pass's result never depends on it. -/
theorem claim8_amended_config_ignored :
    (∀ (es : List Entry) (o1 o2 : OptionsMap), check es o1 = check es o2) ∧
    CHECK_PRECISION = 15 / 1000 :=
  ⟨fun _ _ _ => rfl, rfl⟩

/-- C9: if a run of the pass produces an empty error list, its output
equals its input, and re-running the pass on that output again yields
the same output and an empty error list. -/
theorem claim9_idempotent_on_clean
    (es : List Entry) (cfg : OptionsMap) (out : List Entry)
    (h : check es cfg = some (out, [])) :
    out = es ∧ check out cfg = some (out, []) := by
  obtain ⟨st2, hrep⟩ := check_inv h
  have hid : out = es := replay_no_errors_id hrep
  refine ⟨hid, ?_⟩
  rw [hid]
  rw [hid] at h
  exact h

/-- Witness for C9 at the subtree-aggregation ledger, whose assertion
passes. -/
theorem claim9_witness :
    check esSubtree noOptions = some (esSubtree, []) ∧
    (esSubtree = esSubtree ∧ check esSubtree noOptions = some (esSubtree, [])) := by
  have hchk : check esSubtree noOptions = some (esSubtree, []) := by
    with_unfolding_all rfl
  exact ⟨hchk, claim9_idempotent_on_clean esSubtree noOptions esSubtree hchk⟩

/-- C10: the fatal internal assertion (`assert real_account is not None`,
modelled by the `none` branch) never fires: Selection creates a node for
every account directly named in a Balance directive, so `check` succeeds
on every input. -/
theorem claim10_assert_unreachable (es : List Entry) (cfg : OptionsMap) :
    (check es cfg).isSome = true := by
  unfold check
  have h := @replay_isSome (nodeList es) es initB
    (fun b hb => asserted_mem_nodeList hb)
  cases hr : replay (nodeList es) es initB with
  | none => rw [hr] at h; cases h
  | some r => rfl

end BeancountBalance
